import Mathlib

/-!
Verification of the ordered parallel functor pool of `windpyutils`
(`windpyutils/parallel/own_proc_pools.py`).

The development shallowly embeds the three components of the subsystem:

* the Sequencing Buffer (`Buffer`), which restores ascending sequence order
  from arbitrarily ordered `(sequence number, payload)` submissions.  Its
  source file `windpyutils/buffers.py` is not part of this tree, so the
  buffer is modelled from the specification (section 4.1);
* the worker (`FunctorWorker.run`, lines 66-88), modelled as a function of
  the finite list of messages the worker receives from the task channel;
* the pool (`FunctorPool`, lines 91-182): the `chunking` helper, shutdown
  (`__exit__`), the readiness barrier, and `imap` composed with the buffer.

Concurrency is embedded by making the scheduling explicit: the order in
which tagged results arrive on the result channel is a parameter
(`arrival`), and theorems quantify over every permutation, covering every
possible completion order of the workers.
-/

namespace WindUtils

variable {α β ε : Type}

/-- Translation of the local generator `chunking` inside `FunctorPool.imap`
(own_proc_pools.py lines 149-157).  `ch` is the chunk being accumulated; the
Python loop appends each element to `ch` and yields `ch` exactly when
`len(ch) == chunk_size`, finally yielding a non-empty remainder.
`chunk_size` is an `Int` because the Python argument may be any integer. -/
def chunkingAux (chunk_size : Int) : List α → List α → List (List α)
  | [], ch => if 0 < ch.length then [ch] else []
  | x :: xs, ch =>
    let ch' := ch ++ [x]
    if (ch'.length : Int) = chunk_size then ch' :: chunkingAux chunk_size xs []
    else chunkingAux chunk_size xs ch'

/-- `chunking` as called by `imap`: the accumulator starts empty (line 150). -/
def chunking (chunk_size : Int) (d : List α) : List (List α) :=
  chunkingAux chunk_size d []

/-- Modelled from the spec: the error raised by the Sequencing Buffer on a
sequence number below the next expected one (spec section 7,
`DuplicateSequenceError`).  The buffer class itself lives in
`windpyutils/buffers.py`, which is missing from this tree. -/
inductive BufferError where
  | duplicateSequence
deriving DecidableEq

/-- Modelled from the spec: the Sequencing Buffer state (spec section 3):
a "next expected sequence number" counter starting at 0 plus a mapping from
sequence number to pending payload for every payload received ahead of the
expected number.  The mapping is embedded as an association list. -/
structure Buffer (α : Type) where
  next_expected : Nat
  pending : List (Nat × α)
deriving DecidableEq

/-- The buffer a fresh `imap` call constructs (line 147). -/
def Buffer.empty : Buffer α := { next_expected := 0, pending := [] }

/-- Modelled from the spec: the flush loop of the Sequencing Buffer (spec
section 4.1): "repeatedly check the pending mapping for `next_expected`;
while present, release it and increment".  The while loop is embedded with
explicit fuel; each successful iteration removes one entry from the pending
mapping, so fuel `pending.length` never runs out before the check fails
(once the mapping is empty both the loop condition and the fuel-0 case
return the state unchanged), as the characterisation lemmas below prove. -/
def drainFuel : Nat → Nat → List (Nat × α) → Nat × List (Nat × α) × List α
  | 0, e, pending => (e, pending, [])
  | fuel + 1, e, pending =>
    match pending.lookup e with
    | some v =>
      let rest := drainFuel fuel (e + 1) (pending.eraseP (fun p => p.1 == e))
      (rest.1, rest.2.1, v :: rest.2.2)
    | none => (e, pending, [])

/-- Modelled from the spec: run the flush loop to completion.  Returns the
new counter, the remaining pending mapping and the released payloads in
release order. -/
def drain (e : Nat) (pending : List (Nat × α)) : Nat × List (Nat × α) × List α :=
  drainFuel pending.length e pending

/-- Modelled from the spec: one submission to the Sequencing Buffer (spec
section 4.1).  `seq < next_expected` is a protocol violation and raises;
`seq = next_expected` releases the payload followed by the whole contiguous
pending backlog; `seq > next_expected` stores the payload and releases
nothing.  The returned list is the sequence of payloads released by this
one call, in release order. -/
def Buffer.submit (b : Buffer α) (seq : Nat) (payload : α) :
    Except BufferError (Buffer α × List α) :=
  if seq < b.next_expected then
    .error BufferError.duplicateSequence
  else if seq = b.next_expected then
    let d := drain (seq + 1) b.pending
    .ok ({ next_expected := d.1, pending := d.2.1 }, payload :: d.2.2)
  else
    .ok ({ next_expected := b.next_expected, pending := (seq, payload) :: b.pending }, [])

/-- Feed a list of `(sequence number, payload)` pairs to the buffer in
arrival order, concatenating everything released.  This is what `imap`
does with each `(res_i, res_chunk)` read off the results queue
(lines 168-172 and 178-182). -/
def submitAll (b : Buffer α) : List (Nat × α) → Except BufferError (Buffer α × List α)
  | [] => .ok (b, [])
  | (s, p) :: rest => do
    let step ← b.submit s p
    let out ← submitAll step.1 rest
    pure (out.1, step.2 ++ out.2)

/-- A message on the shared task channel (work queue): either the `None`
termination sentinel put by `FunctorPool.__exit__` (line 125) or a tagged
chunk `(i, data_list)` put by `imap` (line 162). -/
inductive QItem (α : Type) where
  | stop
  | chunk (i : Nat) (data : List α)
deriving DecidableEq

/-- The user functor applied item by item: `[self(x) for x in data_list]`
(line 83) evaluates `self(x)` left to right and an unhandled error in any
call aborts the whole comprehension.  The functor is embedded as
`α → Except ε β`, `Except.error` modelling an unhandled raise. -/
def processList (f : α → Except ε β) : List α → Except ε (List β)
  | [] => .ok []
  | x :: xs => do
    let y ← f x
    let ys ← processList f xs
    pure (y :: ys)

/-- How the processing loop of `FunctorWorker.run` (lines 74-83) ended:
it broke on the `None` sentinel, an unhandled transform error aborted it,
or the queue ran dry and the worker is blocked forever in
`work_queue.get()` (the loop never ends). -/
inductive LoopExit (ε : Type) where
  | sentinel
  | failed (e : ε)
  | blocked
deriving DecidableEq

/-- Outcome of the processing loop over the finite list of messages the
worker receives: the tagged results put on the results queue (in put
order), how the loop ended, and how many messages were read off the task
channel. -/
structure LoopResult (ε β : Type) where
  results : List (Nat × List β)
  exit : LoopExit ε
  reads : Nat
deriving DecidableEq

/-- Translation of the `while True` loop of `FunctorWorker.run`
(lines 74-83): block on the task channel; a `None` item breaks the loop
(no further reads); a chunk `(i, data_list)` is processed item by item and
`(i, outputs)` is put on the results queue; an unhandled transform error
aborts the loop. -/
def runLoop (f : α → Except ε β) : List (QItem α) → LoopResult ε β
  | [] => { results := [], exit := .blocked, reads := 0 }
  | QItem.stop :: _ => { results := [], exit := .sentinel, reads := 1 }
  | QItem.chunk i data :: rest =>
    match processList f data with
    | .error e => { results := [], exit := .failed e, reads := 1 }
    | .ok ys =>
      let r := runLoop f rest
      { results := (i, ys) :: r.results, exit := r.exit, reads := r.reads + 1 }

/-- Observable events of one execution of `FunctorWorker.run`, in order:
`begin_finished.set()` (line 73), a result put (line 83), the two channel
closes and the `end()` call of the `finally` block (lines 86-88). -/
inductive REvent (β : Type) where
  | readySet
  | putResult (i : Nat) (ys : List β)
  | closeWorkQueue
  | closeResultsQueue
  | endCall
deriving DecidableEq

/-- Result of one execution of `FunctorWorker.run` over the finite list of
messages received: the count of `begin_finished.set()` calls, the results
put, the reads performed, whether each queue was closed, the count of
`end()` calls, and the full ordered event trace. -/
structure RunResult (ε β : Type) where
  readyCount : Nat
  results : List (Nat × List β)
  reads : Nat
  workQueueClosed : Bool
  resultsQueueClosed : Bool
  endCalls : Nat
  trace : List (REvent β)
deriving DecidableEq

/-- Translation of `FunctorWorker.run` (lines 66-88).  `begin?` is the
outcome of the `begin()` hook: `self.begin_finished.set()` on line 73 runs
only if `begin()` returned, an exception skipping straight to the
`finally` block.  The `finally` block (close both channels, then `end()`)
runs whenever the `try` body terminates — normally on the sentinel or by
an unhandled error — but never runs while the worker is blocked forever on
an empty task channel. -/
def run (begin? : Except ε Unit) (f : α → Except ε β) (q : List (QItem α)) :
    RunResult ε β :=
  match begin? with
  | .error _ =>
    { readyCount := 0, results := [], reads := 0,
      workQueueClosed := true, resultsQueueClosed := true, endCalls := 1,
      trace := [REvent.closeWorkQueue, REvent.closeResultsQueue, REvent.endCall] }
  | .ok _ =>
    let L := runLoop f q
    let puts := L.results.map fun p => REvent.putResult p.1 p.2
    match L.exit with
    | LoopExit.blocked =>
      { readyCount := 1, results := L.results, reads := L.reads,
        workQueueClosed := false, resultsQueueClosed := false, endCalls := 0,
        trace := REvent.readySet :: puts }
    | _ =>
      { readyCount := 1, results := L.results, reads := L.reads,
        workQueueClosed := true, resultsQueueClosed := true, endCalls := 1,
        trace := REvent.readySet :: puts ++
          [REvent.closeWorkQueue, REvent.closeResultsQueue, REvent.endCall] }

/-- The readiness barrier `FunctorPool.until_all_ready` (lines 129-135)
waits on every worker's `begin_finished` event; it returns exactly when
every flag has been set. -/
def untilAllReady (flags : List Bool) : Bool :=
  flags.all (fun b => b)

/-- State of a worker's execution context: still running, or exited
(normally or abnormally — `Process.join` does not distinguish). -/
inductive WStatus where
  | running
  | exited
deriving DecidableEq

/-- `Process.join` (line 127): wait for the context to exit.  It is total —
defined also on an already exited context — which models that the wait is
idempotent and tolerates workers that already exited abnormally. -/
def joinWorker : WStatus → WStatus := fun _ => WStatus.exited

/-- Translation of `FunctorPool.__exit__` (lines 123-127): put one `None`
sentinel on the shared task channel per worker, then join every worker.
Takes the current content of the task channel and the worker statuses;
returns both updated. -/
def poolExit (q : List (QItem α)) (ws : List WStatus) :
    List (QItem α) × List WStatus :=
  (q ++ List.replicate ws.length QItem.stop, ws.map joinWorker)

/-- Model of `FunctorPool.imap` with a pure per-item functor `f`
(lines 137-182).  The chunks are produced by `chunking`; a worker that
consumes chunk `(i, c)` puts `(i, c.map f)` on the results queue
(line 83 with a pure functor); `arrival` is the order in which the tagged
results are read off the results queue — quantifying over all its
permutations covers every completion order of every number of workers.
Each read result is fed to the Sequencing Buffer and every payload the
buffer releases is yielded item by item (lines 166-182); the interleaving
of the opportunistic and the final blocking drain affects only when
outputs are yielded, not their overall sequence, which is the
concatenation of the buffer's releases over the whole arrival order.
The source contains no validation of `chunk_size` and no pool-state check:
the only failure path is the buffer's. -/
def imapModel (f : α → β) (chunk_size : Int) (xs : List α) (arrival : List Nat) :
    Except BufferError (List β) := do
  let chunks := chunking chunk_size xs
  let fed ← submitAll Buffer.empty (arrival.map fun i => (i, (chunks.getD i []).map f))
  pure fed.2.flatten

/-! ### Properties of `chunking` -/

theorem length_append_singleton_int (ch : List α) (x : α) :
    ((ch ++ [x]).length : Int) = (ch.length : Int) + 1 := by
  simp

theorem chunkingAux_flatten (cs : Int) (hcs : 1 ≤ cs) :
    ∀ (xs ch : List α), (ch.length : Int) < cs →
      (chunkingAux cs xs ch).flatten = ch ++ xs := by
  intro xs
  induction xs with
  | nil =>
    intro ch _
    by_cases h : 0 < ch.length
    · simp [chunkingAux, h]
    · simp [chunkingAux, h, List.length_eq_zero.mp (Nat.eq_zero_of_not_pos h)]
  | cons x xs ih =>
    intro ch hch
    have hx := length_append_singleton_int ch x
    by_cases h : ((ch ++ [x]).length : Int) = cs
    · simp only [chunkingAux, h, if_pos]
      rw [List.flatten_cons, ih [] (by simp; omega)]
      simp
    · simp only [chunkingAux, h, if_neg, not_false_iff]
      rw [ih (ch ++ [x]) (by omega)]
      simp

theorem chunking_flatten (cs : Int) (hcs : 1 ≤ cs) (xs : List α) :
    (chunking cs xs).flatten = xs := by
  simpa using chunkingAux_flatten cs hcs xs [] (by simp; omega)

theorem chunkingAux_size_le (cs : Int) :
    ∀ (xs ch : List α), (ch.length : Int) < cs →
      ∀ c ∈ chunkingAux cs xs ch, (c.length : Int) ≤ cs := by
  intro xs
  induction xs with
  | nil =>
    intro ch hch c hc
    by_cases h : 0 < ch.length
    · simp only [chunkingAux, h, if_pos, List.mem_singleton] at hc
      subst hc; omega
    · simp [chunkingAux, h] at hc
  | cons x xs ih =>
    intro ch hch c hc
    have hx := length_append_singleton_int ch x
    by_cases h : ((ch ++ [x]).length : Int) = cs
    · simp only [chunkingAux, h, if_pos, List.mem_cons] at hc
      rcases hc with hc | hc
      · subst hc; omega
      · exact ih [] (by simp; omega) c hc
    · simp only [chunkingAux, h, if_neg, not_false_iff] at hc
      exact ih (ch ++ [x]) (by omega) c hc

theorem chunkingAux_dropLast_full (cs : Int) :
    ∀ (xs ch : List α), (ch.length : Int) < cs →
      ∀ c ∈ (chunkingAux cs xs ch).dropLast, (c.length : Int) = cs := by
  intro xs
  induction xs with
  | nil =>
    intro ch _ c hc
    by_cases h : 0 < ch.length <;> simp [chunkingAux, h] at hc
  | cons x xs ih =>
    intro ch hch c hc
    have hx := length_append_singleton_int ch x
    by_cases h : ((ch ++ [x]).length : Int) = cs
    · simp only [chunkingAux, h, if_pos] at hc
      rcases hr : chunkingAux cs xs ([] : List α) with _ | ⟨d, ds⟩
      · rw [hr] at hc; simp at hc
      · rw [hr, List.dropLast_cons₂, List.mem_cons] at hc
        rcases hc with hc | hc
        · subst hc; exact h
        · refine ih [] (by simp; omega) c ?_
          rw [hr]
          exact hc
    · simp only [chunkingAux, h, if_neg, not_false_iff] at hc
      exact ih (ch ++ [x]) (by omega) c hc

theorem chunkingAux_small (cs : Int) :
    ∀ (xs ch : List α), ((ch ++ xs).length : Int) < cs →
      chunkingAux cs xs ch = if 0 < (ch ++ xs).length then [ch ++ xs] else [] := by
  intro xs
  induction xs with
  | nil => intro ch _; simp [chunkingAux]
  | cons x xs ih =>
    intro ch hlt
    have hlt' : (ch.length : Int) + (xs.length : Int) + 1 < cs := by
      have h0 := hlt
      simp only [List.length_append, List.length_cons] at h0
      push_cast at h0
      omega
    have hne : ((ch ++ [x]).length : Int) ≠ cs := by
      have hx := length_append_singleton_int ch x
      omega
    have hrec : (((ch ++ [x]) ++ xs).length : Int) < cs := by
      simp only [List.length_append, List.length_cons, List.length_nil]
      push_cast
      omega
    simp only [chunkingAux, hne, if_neg, not_false_iff]
    rw [ih (ch ++ [x]) hrec]
    simp [List.append_assoc]

theorem chunkingAux_nonpos (cs : Int) (hcs : cs ≤ 0) :
    ∀ (xs ch : List α),
      chunkingAux cs xs ch = if 0 < (ch ++ xs).length then [ch ++ xs] else [] := by
  intro xs
  induction xs with
  | nil => intro ch; simp [chunkingAux]
  | cons x xs ih =>
    intro ch
    have hne : ((ch ++ [x]).length : Int) ≠ cs := by
      have hx := length_append_singleton_int ch x
      have : (0 : Int) ≤ (ch.length : Int) := by positivity
      omega
    simp only [chunkingAux, hne, if_neg, not_false_iff]
    rw [ih (ch ++ [x])]
    simp [List.append_assoc]

/-! ### Properties of the Sequencing Buffer -/

theorem lookup_keyMap (r : Nat → α) (ks : List Nat) (a : Nat) :
    (ks.map fun i => (i, r i)).lookup a = if a ∈ ks then some (r a) else none := by
  induction ks with
  | nil => simp [List.lookup]
  | cons k t ih =>
    by_cases hk : k = a
    · subst hk
      simp [List.lookup]
    · have hak : (a == k) = false := beq_eq_false_iff_ne.mpr (fun h => hk h.symm)
      simp only [List.map_cons, List.lookup, hak, ih]
      by_cases ha : a ∈ t
      · simp [ha]
      · simp [ha, Ne.symm hk]

theorem eraseP_keyMap (r : Nat → α) (ks : List Nat) (a : Nat) :
    (ks.map fun i => (i, r i)).eraseP (fun p => p.1 == a) =
      (ks.erase a).map fun i => (i, r i) := by
  induction ks with
  | nil => simp
  | cons k t ih =>
    by_cases hk : k = a
    · subst hk
      simp [List.eraseP_cons, List.erase_cons]
    · simp [List.eraseP_cons, List.erase_cons, hk, ih]

theorem drainFuel_spec (r : Nat → α) :
    ∀ (fuel : Nat) (ks : List Nat) (a : Nat), ks.Nodup → ks.length ≤ fuel →
      ∃ (m : Nat) (ks' : List Nat),
        drainFuel fuel a (ks.map fun i => (i, r i)) =
          (a + m, ks'.map (fun i => (i, r i)), (List.range' a m).map r)
        ∧ (ks' ++ List.range' a m).Perm ks
        ∧ (a + m) ∉ ks' := by
  intro fuel
  induction fuel with
  | zero =>
    intro ks a _ hlen
    have hnil : ks = [] := List.eq_nil_of_length_eq_zero (Nat.le_zero.mp hlen)
    subst hnil
    exact ⟨0, [], by simp [drainFuel], by simp, by simp⟩
  | succ fuel ih =>
    intro ks a hnd hlen
    by_cases ha : a ∈ ks
    · have hlk : (ks.map fun i => (i, r i)).lookup a = some (r a) := by
        rw [lookup_keyMap, if_pos ha]
      have hlen' : (ks.erase a).length ≤ fuel := by
        rw [List.length_erase_of_mem ha]
        have : 0 < ks.length := List.length_pos.mpr (List.ne_nil_of_mem ha)
        omega
      obtain ⟨m, ks', heq, hperm, hnm⟩ := ih (ks.erase a) (a + 1) (hnd.erase a) hlen'
      refine ⟨m + 1, ks', ?_, ?_, ?_⟩
      · simp only [drainFuel, hlk, eraseP_keyMap, heq]
        rw [List.range'_succ]
        simp only [List.map_cons]
        have h1 : a + 1 + m = a + (m + 1) := by omega
        rw [h1]
      · rw [List.range'_succ]
        refine List.Perm.trans List.perm_middle ?_
        refine List.Perm.trans (hperm.cons a) ?_
        exact (List.perm_cons_erase ha).symm
      · have h1 : a + (m + 1) = a + 1 + m := by omega
        rw [h1]
        exact hnm
    · have hlk : (ks.map fun i => (i, r i)).lookup a = none := by
        rw [lookup_keyMap, if_neg ha]
      exact ⟨0, ks, by simp [drainFuel, hlk], by simp, by simpa using ha⟩

theorem drain_spec (r : Nat → α) (ks : List Nat) (a : Nat) (hnd : ks.Nodup) :
    ∃ (m : Nat) (ks' : List Nat),
      drain a (ks.map fun i => (i, r i)) =
        (a + m, ks'.map (fun i => (i, r i)), (List.range' a m).map r)
      ∧ (ks' ++ List.range' a m).Perm ks
      ∧ (a + m) ∉ ks' := by
  have h := drainFuel_spec r ((ks.map fun i => (i, r i)).length) ks a hnd (by simp)
  simpa [drain] using h

theorem range'_split (s m n : Nat) :
    List.range' s (m + n) = List.range' s m ++ List.range' (s + m) n := by
  induction m generalizing s with
  | zero => simp
  | succ m ih =>
    rw [Nat.succ_add, List.range'_succ, List.range'_succ, ih (s + 1),
      show s + 1 + m = s + (m + 1) from by omega]
    simp

theorem submit_hit (e : Nat) (pend : List (Nat × α)) (p : α) :
    Buffer.submit { next_expected := e, pending := pend } e p =
      .ok ({ next_expected := (drain (e + 1) pend).1,
             pending := (drain (e + 1) pend).2.1 },
           p :: (drain (e + 1) pend).2.2) := by
  unfold Buffer.submit
  simp

theorem submit_store (e : Nat) (pend : List (Nat × α)) (s : Nat) (p : α) (h : e < s) :
    Buffer.submit { next_expected := e, pending := pend } s p =
      .ok ({ next_expected := e, pending := (s, p) :: pend }, []) := by
  unfold Buffer.submit
  dsimp only
  rw [if_neg (by omega), if_neg (by omega)]

theorem submitAll_cons_ok (b b2 : Buffer α) (s : Nat) (p : α) (outs : List α)
    (rest : List (Nat × α)) (h : b.submit s p = .ok (b2, outs)) :
    submitAll b ((s, p) :: rest) =
      Except.map (fun out => (out.1, outs ++ out.2)) (submitAll b2 rest) := by
  simp only [submitAll, h]
  rfl

theorem submitAll_core (r : Nat → α) (k : Nat) :
    ∀ (rem ks : List Nat) (e : Nat),
      ((ks ++ rem).Perm (List.range' e (k - e))) →
      (∀ i ∈ ks, e < i) →
      e ≤ k →
      submitAll { next_expected := e, pending := ks.map fun i => (i, r i) }
          (rem.map fun i => (i, r i)) =
        .ok ({ next_expected := k, pending := [] }, (List.range' e (k - e)).map r) := by
  intro rem
  induction rem with
  | nil =>
    intro ks e hperm hgt hek
    have hks : ks.Perm (List.range' e (k - e)) := by simpa using hperm
    have hek2 : e = k := by
      by_contra hne
      have hlt : e < k := lt_of_le_of_ne hek hne
      have hmem : e ∈ List.range' e (k - e) := by
        rw [List.mem_range'_1]
        omega
      exact absurd (hgt e (hks.mem_iff.mpr hmem)) (lt_irrefl e)
    subst hek2
    have hnil : ks = [] := by
      have h := hks
      rw [Nat.sub_self] at h
      simpa using h.eq_nil
    subst hnil
    simp [submitAll]
  | cons s rest ih =>
    intro ks e hperm hgt hek
    have hnd : (ks ++ s :: rest).Nodup :=
      hperm.nodup_iff.mpr (List.nodup_range' ..)
    have hndks : ks.Nodup := hnd.of_append_left
    have hsmem : s ∈ List.range' e (k - e) := hperm.mem_iff.mp (by simp)
    have hsrange : e ≤ s ∧ s < e + (k - e) := List.mem_range'_1.mp hsmem
    have hsk : s < k := by omega
    have hse : e ≤ s := hsrange.1
    have hksub : ∀ i ∈ ks, i < k := by
      intro i hi
      have h1 : i ∈ List.range' e (k - e) := hperm.mem_iff.mp (by simp [hi])
      have h2 := List.mem_range'_1.mp h1
      omega
    have hek1 : e < k := by omega
    have hrange1 : List.range' e (k - e) = e :: List.range' (e + 1) (k - e - 1) := by
      rw [show k - e = (k - e - 1) + 1 from by omega, List.range'_succ]
      simp only [Nat.add_sub_cancel]
    by_cases hseq : s = e
    · subst hseq
      -- the gap at `next_expected` closes: the buffer flushes the backlog
      obtain ⟨m, ks', heq, hpermd, hnm⟩ := drain_spec r ks (s + 1) hndks
      have htail : (ks ++ rest).Perm (List.range' (s + 1) (k - s - 1)) := by
        have h1 : (ks ++ s :: rest).Perm (s :: (ks ++ rest)) := List.perm_middle
        have h2 : (s :: (ks ++ rest)).Perm (s :: List.range' (s + 1) (k - s - 1)) :=
          (h1.symm.trans hperm).trans (by rw [hrange1])
        exact h2.cons_inv
      have hmlt : m ≤ k - s - 1 := by
        rcases Nat.eq_zero_or_pos m with hm | hm
        · omega
        · have hmem : s + m ∈ List.range' (s + 1) m := by
            rw [List.mem_range'_1]
            omega
          have h1 : s + m ∈ ks := hpermd.mem_iff.mp (by simp [hmem])
          have h2 := hksub _ h1
          omega
      have hsplit2 : List.range' (s + 1) (k - s - 1) =
          List.range' (s + 1) m ++ List.range' (s + 1 + m) (k - s - 1 - m) := by
        rw [← range'_split]
        congr 1
        omega
      have hih : (ks' ++ rest).Perm (List.range' (s + 1 + m) (k - (s + 1 + m))) := by
        have hA : ((ks' ++ List.range' (s + 1) m) ++ rest).Perm
            (List.range' (s + 1) m ++ List.range' (s + 1 + m) (k - s - 1 - m)) :=
          (hpermd.append_right rest).trans (htail.trans (by rw [hsplit2]))
        have hB : ((ks' ++ List.range' (s + 1) m) ++ rest).Perm
            (List.range' (s + 1) m ++ (ks' ++ rest)) := by
          refine List.Perm.trans
            ((List.perm_append_comm :
              (ks' ++ List.range' (s + 1) m).Perm
                (List.range' (s + 1) m ++ ks')).append_right rest) ?_
          rw [List.append_assoc]
        have hC := (List.perm_append_left_iff _).mp (hB.symm.trans hA)
        rw [show k - (s + 1 + m) = k - s - 1 - m from by omega]
        exact hC
      have hgt' : ∀ i ∈ ks', s + 1 + m < i := by
        intro i hi
        have hiks : i ∈ ks := hpermd.mem_iff.mp (by simp [hi])
        have hie : s < i := hgt i hiks
        have hndks' : (ks' ++ List.range' (s + 1) m).Nodup :=
          hpermd.nodup_iff.mpr hndks
        have hnotr : i ∉ List.range' (s + 1) m := by
          intro hcon
          exact (List.disjoint_of_nodup_append hndks') hi hcon
        rw [List.mem_range'_1] at hnotr
        push_neg at hnotr
        have him : s + 1 + m ≤ i := by
          by_cases hc : s + 1 ≤ i
          · have h1 := hnotr hc
            omega
          · omega
        have hne2 : i ≠ s + 1 + m := fun hcon => hnm (hcon ▸ hi)
        omega
      have hek' : s + 1 + m ≤ k := by omega
      have hrec := ih ks' (s + 1 + m) hih hgt' hek'
      have hsub := submit_hit s (ks.map fun i => (i, r i)) (r s)
      rw [show drain (s + 1) (ks.map fun i => (i, r i)) =
          (s + 1 + m, ks'.map (fun i => (i, r i)), (List.range' (s + 1) m).map r)
        from heq] at hsub
      rw [List.map_cons, submitAll_cons_ok _ _ _ _ _ _ hsub, hrec]
      simp only [Except.map]
      rw [hrange1, hsplit2, show k - (s + 1 + m) = k - s - 1 - m from by omega]
      simp only [List.map_cons, List.map_append, List.cons_append]
    · have hslt : e < s := lt_of_le_of_ne hse (fun h => hseq h.symm)
      have hsub := submit_store e (ks.map fun i => (i, r i)) s (r s) hslt
      have hih : ((s :: ks) ++ rest).Perm (List.range' e (k - e)) := by
        have h1 : (ks ++ s :: rest).Perm (s :: (ks ++ rest)) := List.perm_middle
        exact h1.symm.trans hperm
      have hgt' : ∀ i ∈ s :: ks, e < i := by
        intro i hi
        rcases List.mem_cons.mp hi with hi | hi
        · subst hi; exact hslt
        · exact hgt i hi
      have hrec := ih (s :: ks) e hih hgt' hek
      simp only [List.map_cons] at hrec
      rw [List.map_cons, submitAll_cons_ok _ _ _ _ _ _ hsub, hrec]
      simp [Except.map]

/-- Shared core: feeding any permutation of the tagged payloads
`(0, r 0), …, (k-1, r (k-1))` to a fresh buffer releases exactly
`r 0, …, r (k-1)` in ascending sequence order and empties the buffer. -/
theorem submitAll_perm (r : Nat → α) (k : Nat) (arrival : List Nat)
    (h : arrival.Perm (List.range k)) :
    submitAll Buffer.empty (arrival.map fun i => (i, r i)) =
      .ok ({ next_expected := k, pending := [] }, (List.range k).map r) := by
  have hc := submitAll_core r k arrival [] 0
    (by simpa [List.range_eq_range'] using h) (by simp) (Nat.zero_le k)
  simpa [Buffer.empty, List.range_eq_range'] using hc

theorem flatten_getD_range (L : List (List α)) (f : α → β) :
    ((List.range L.length).map (fun i => (L.getD i []).map f)).flatten =
      L.flatten.map f := by
  induction L with
  | nil => simp
  | cons c t ih =>
    rw [List.length_cons, List.range_succ_eq_map, List.map_cons, List.map_map]
    have hfun : ((fun i => ((c :: t).getD i []).map f) ∘ Nat.succ) =
        (fun i => (t.getD i []).map f) := by
      funext i
      simp [Nat.succ_eq_add_one]
    rw [hfun, List.flatten_cons, ih, List.getD_cons_zero, ← List.map_append,
      List.flatten_cons]

/-- Claim C2: for every sequence of submissions whose sequence numbers form a
permutation of `0..k-1`, arriving in arbitrary order, the Sequencing Buffer
releases the payloads strictly in increasing sequence order (the concatenation
of all releases is `r 0, r 1, …, r (k-1)`), a gap-closing submission flushing
the whole contiguous pending backlog in that one call (the flush loop inside
`Buffer.submit`); in particular submitting `(0,"a"), (2,"c"), (1,"b")` in that
arrival order releases `"a","b","c"` in that order. -/
theorem buffer_releases_in_order (r : Nat → α) (k : Nat) (arrival : List Nat)
    (h : arrival.Perm (List.range k)) :
    submitAll Buffer.empty (arrival.map fun i => (i, r i)) =
      .ok ({ next_expected := k, pending := [] }, (List.range k).map r) :=
  submitAll_perm r k arrival h

/-- Witness for C2: the spec's concrete example, arrival order
`(0,"a"), (2,"c"), (1,"b")`, releases `"a","b","c"`. -/
theorem buffer_releases_in_order_witness :
    ([0, 2, 1].Perm (List.range 3))
    ∧ submitAll Buffer.empty [(0, "a"), (2, "c"), (1, "b")] =
        .ok ({ next_expected := 3, pending := [] }, ["a", "b", "c"]) :=
  ⟨by decide, buffer_releases_in_order (fun i => ["a", "b", "c"].getD i "") 3 [0, 2, 1]
    (by decide)⟩

/-- Claim C1: for every finite input `xs`, every `chunk_size ≥ 1` and worker
count `n ≥ 1` with a pure per-item transform `f`, `imap` yields exactly
`xs.length` outputs, the i-th equal to `f (xs[i])`, in input order — for every
possible completion order of the chunks (`arrival` ranges over all
permutations of the chunk sequence numbers). -/
theorem imap_ordered (f : α → β) (chunk_size : Int) (n : Nat) (xs : List α)
    (arrival : List Nat) (hcs : 1 ≤ chunk_size) (hn : 1 ≤ n)
    (harr : arrival.Perm (List.range (chunking chunk_size xs).length)) :
    imapModel f chunk_size xs arrival = .ok (xs.map f) := by
  have hsub := submitAll_perm (fun i => ((chunking chunk_size xs).getD i []).map f)
    ((chunking chunk_size xs).length) arrival harr
  simp only [imapModel]
  rw [hsub]
  show Except.ok (((List.range (chunking chunk_size xs).length).map
      (fun i => ((chunking chunk_size xs).getD i []).map f)).flatten) =
    Except.ok (xs.map f)
  rw [flatten_getD_range, chunking_flatten chunk_size hcs]

/-- Witness for C1: two chunks `[1,2]` and `[3]` of `[1,2,3]` with
`chunk_size = 2`, one worker, results arriving out of order (`[1,0]`),
still yield `[2,4,6]` in input order. -/
theorem imap_ordered_witness :
    ((1 : Int) ≤ 2 ∧ 1 ≤ 1
      ∧ [1, 0].Perm (List.range (chunking 2 [1, 2, 3]).length))
    ∧ imapModel (fun v : Nat => v * 2) 2 [1, 2, 3] [1, 0] = .ok [2, 4, 6] :=
  ⟨⟨by decide, by decide, by decide⟩,
    imap_ordered (fun v : Nat => v * 2) 2 1 [1, 2, 3] [1, 0]
      (by decide) (by decide) (by decide)⟩

/-! ### Properties of the worker -/

theorem processList_pure (g : α → β) (d : List α) :
    processList (fun x => (Except.ok (g x) : Except ε β)) d = .ok (d.map g) := by
  induction d with
  | nil => rfl
  | cons x t ih =>
    simp only [processList, ih]
    rfl

theorem runLoop_pure_sentinel (g : α → β) :
    ∀ (pre rest : List (QItem α)), QItem.stop ∉ pre →
      (runLoop (fun x => (Except.ok (g x) : Except ε β))
          (pre ++ QItem.stop :: rest)).exit = LoopExit.sentinel
      ∧ (runLoop (fun x => (Except.ok (g x) : Except ε β))
          (pre ++ QItem.stop :: rest)).reads = pre.length + 1 := by
  intro pre
  induction pre with
  | nil => intro rest _; simp [runLoop]
  | cons it t ih =>
    intro rest hpre
    match it with
    | QItem.stop => exact absurd (List.mem_cons_self _ _) hpre
    | QItem.chunk i d =>
      have h1 : QItem.stop ∉ t := fun h => hpre (List.mem_cons_of_mem _ h)
      have h2 := ih rest h1
      simp [runLoop, processList_pure, h2.1, h2.2]

theorem runLoop_pure_blocked (g : α → β) :
    ∀ (q : List (QItem α)), QItem.stop ∉ q →
      (runLoop (fun x => (Except.ok (g x) : Except ε β)) q).exit =
        LoopExit.blocked := by
  intro q
  induction q with
  | nil => intro _; rfl
  | cons it t ih =>
    intro hq
    match it with
    | QItem.stop => exact absurd (List.mem_cons_self _ _) hq
    | QItem.chunk i d =>
      have h1 : QItem.stop ∉ t := fun h => hq (List.mem_cons_of_mem _ h)
      simp [runLoop, processList_pure, ih h1]

/-- Claim C10: the termination sentinel is the value `None` itself.  With a
pure transform `g`, the worker's loop ends exactly at the first `None` on the
task channel: it reads the `pre.length` chunk messages before the sentinel
plus the sentinel itself and nothing after it, and exits via the sentinel
break; on a queue containing no `None` the loop never ends (the worker blocks
on the next read); and a chunk message `(i, data)` is never equal to the
sentinel, so `None` cannot be dispatched as a valid chunk and any `None`
terminates the worker. -/
theorem sentinel_protocol (g : α → β) (pre rest q : List (QItem α))
    (i : Nat) (d : List α) (hpre : QItem.stop ∉ pre) (hq : QItem.stop ∉ q) :
    (runLoop (fun x => (Except.ok (g x) : Except Unit β))
        (pre ++ QItem.stop :: rest)).reads = pre.length + 1
    ∧ (runLoop (fun x => (Except.ok (g x) : Except Unit β))
        (pre ++ QItem.stop :: rest)).exit = LoopExit.sentinel
    ∧ (runLoop (fun x => (Except.ok (g x) : Except Unit β)) q).exit =
        LoopExit.blocked
    ∧ QItem.chunk i d ≠ QItem.stop := by
  have h1 := runLoop_pure_sentinel (ε := Unit) g pre rest hpre
  exact ⟨h1.2, h1.1, runLoop_pure_blocked g q hq, by simp⟩

/-- Witness for C10 at a concrete queue: one chunk before the sentinel, one
after; the loop reads 2 messages, ends on the sentinel, and a sentinel-free
queue leaves it blocked. -/
theorem sentinel_protocol_witness :
    ((QItem.stop : QItem Nat) ∉ [QItem.chunk 0 [5]]
      ∧ (QItem.stop : QItem Nat) ∉ [QItem.chunk 2 [7]])
    ∧ ((runLoop (fun x : Nat => (Except.ok (x + 1) : Except Unit Nat))
          ([QItem.chunk 0 [5]] ++ QItem.stop :: [QItem.chunk 1 [6]])).reads = 2
      ∧ (runLoop (fun x : Nat => (Except.ok (x + 1) : Except Unit Nat))
          ([QItem.chunk 0 [5]] ++ QItem.stop :: [QItem.chunk 1 [6]])).exit =
            LoopExit.sentinel
      ∧ (runLoop (fun x : Nat => (Except.ok (x + 1) : Except Unit Nat))
          [QItem.chunk 2 [7]]).exit = LoopExit.blocked
      ∧ QItem.chunk 3 [8] ≠ (QItem.stop : QItem Nat)) :=
  ⟨⟨by decide, by decide⟩,
    sentinel_protocol (fun x : Nat => x + 1) [QItem.chunk 0 [5]] [QItem.chunk 1 [6]]
      [QItem.chunk 2 [7]] 3 [8] (by decide) (by decide)⟩

/-- Counterexample to C4 as stated: `self.begin_finished.set()` (line 73)
runs only after `self.begin()` (line 72) has returned successfully.  If
`begin` raises, control jumps to the `finally` block and the ready signal
never fires: the worker signals ready zero times, not exactly once. -/
theorem run_ready_counterexample :
    (run (Except.error ()) (fun v : Nat => (Except.ok v : Except Unit Nat))
      [QItem.stop]).readyCount = 0 := rfl

/-- Claim C4 (amended): the worker signals ready (sets `begin_finished`)
exactly once when the setup hook `begin` returns successfully, and never
when `begin` raises; `until_all_ready` returns exactly when every worker's
ready flag has been set. -/
theorem run_ready_signal (begin? : Except ε Unit) (f : α → Except ε β)
    (q : List (QItem α)) (flags : List Bool) :
    (run begin? f q).readyCount = (match begin? with | .ok _ => 1 | .error _ => 0)
    ∧ (untilAllReady flags = true ↔ ∀ b ∈ flags, b = true) := by
  constructor
  · cases begin? with
    | error e => rfl
    | ok u =>
      rcases hx : (runLoop f q).exit with _ | e2 | _ <;> simp [run, hx]
  · simp [untilAllReady, List.all_eq_true]

/-- Claim C7: whenever the processing loop ends — on the sentinel or through
an unhandled transform error (and also when `begin` itself raises) — the
`finally` block runs: the teardown hook `end()` runs exactly once, both
channels are closed, and the trace ends with the two closes followed by the
`end()` call, after every other event of the execution. -/
theorem run_teardown (begin? : Except ε Unit) (f : α → Except ε β)
    (q : List (QItem α)) (h : (runLoop f q).exit ≠ LoopExit.blocked) :
    (run begin? f q).endCalls = 1
    ∧ (run begin? f q).workQueueClosed = true
    ∧ (run begin? f q).resultsQueueClosed = true
    ∧ [REvent.closeWorkQueue, REvent.closeResultsQueue,
        REvent.endCall].IsSuffix (run begin? f q).trace := by
  cases begin? with
  | error e => exact ⟨rfl, rfl, rfl, ⟨[], rfl⟩⟩
  | ok u =>
    have hrun : run (Except.ok u) f q =
        { readyCount := 1, results := (runLoop f q).results,
          reads := (runLoop f q).reads,
          workQueueClosed := true, resultsQueueClosed := true, endCalls := 1,
          trace := REvent.readySet ::
            ((runLoop f q).results.map fun p => REvent.putResult p.1 p.2) ++
            [REvent.closeWorkQueue, REvent.closeResultsQueue,
              REvent.endCall] } := by
      rcases hx : (runLoop f q).exit with _ | e2 | _
      · simp [run, hx]
      · simp [run, hx]
      · exact absurd hx h
    rw [hrun]
    exact ⟨rfl, rfl, rfl,
      ⟨REvent.readySet ::
        ((runLoop f q).results.map fun p => REvent.putResult p.1 p.2), rfl⟩⟩

/-- Witness for C7: a worker whose loop ends on the sentinel closes both
channels and runs `end()` exactly once, at the very end of its trace. -/
theorem run_teardown_witness :
    ((runLoop (fun v : Nat => (Except.ok v : Except Unit Nat))
        [QItem.chunk 0 [4], QItem.stop]).exit ≠ LoopExit.blocked)
    ∧ ((run (Except.ok ()) (fun v : Nat => (Except.ok v : Except Unit Nat))
          [QItem.chunk 0 [4], QItem.stop]).endCalls = 1
      ∧ (run (Except.ok ()) (fun v : Nat => (Except.ok v : Except Unit Nat))
          [QItem.chunk 0 [4], QItem.stop]).workQueueClosed = true
      ∧ (run (Except.ok ()) (fun v : Nat => (Except.ok v : Except Unit Nat))
          [QItem.chunk 0 [4], QItem.stop]).resultsQueueClosed = true
      ∧ [REvent.closeWorkQueue, REvent.closeResultsQueue,
          REvent.endCall].IsSuffix
            (run (Except.ok ()) (fun v : Nat => (Except.ok v : Except Unit Nat))
              [QItem.chunk 0 [4], QItem.stop]).trace) :=
  ⟨by decide, run_teardown (Except.ok ()) (fun v : Nat => Except.ok v)
    [QItem.chunk 0 [4], QItem.stop] (by decide)⟩

/-- Claim C6: submitting a sequence number strictly below `next_expected`
(one already released) fails with `DuplicateSequenceError`; the error return
models the raise, so nothing is released by the call. -/
theorem submit_duplicate (b : Buffer α) (s : Nat) (p : α)
    (h : s < b.next_expected) :
    b.submit s p = .error BufferError.duplicateSequence := by
  unfold Buffer.submit
  rw [if_pos h]

/-- Witness for C6: resubmitting sequence number 1 to a buffer already past
it (next expected is 2) raises. -/
theorem submit_duplicate_witness :
    (1 < (Buffer.mk 2 [] : Buffer String).next_expected)
    ∧ Buffer.submit (Buffer.mk 2 [] : Buffer String) 1 "x" =
        .error BufferError.duplicateSequence :=
  ⟨by decide, submit_duplicate (Buffer.mk 2 []) 1 "x" (by decide)⟩

theorem map_joinWorker (ws : List WStatus) :
    ws.map joinWorker = List.replicate ws.length WStatus.exited := by
  induction ws with
  | nil => rfl
  | cons w t ih => simp [joinWorker, List.replicate_succ, ih]

/-- Claim C8: `FunctorPool.__exit__` appends exactly one `None` sentinel per
worker to the shared task channel (the sentinel count grows by exactly the
worker count), then joins every worker, after which every worker's context
has exited; the join is total on an already-exited context, so workers that
already exited abnormally are tolerated. -/
theorem poolExit_spec [DecidableEq α] (q : List (QItem α)) (ws : List WStatus) :
    (poolExit q ws).1 = q ++ List.replicate ws.length QItem.stop
    ∧ (poolExit q ws).1.count QItem.stop = q.count QItem.stop + ws.length
    ∧ (poolExit q ws).2 = List.replicate ws.length WStatus.exited
    ∧ joinWorker WStatus.exited = WStatus.exited := by
  refine ⟨rfl, ?_, ?_, rfl⟩
  · simp [poolExit, List.count_append, List.count_replicate]
  · simp [poolExit, map_joinWorker]

/-- Counterexample to C9 as stated: `imap` contains no pool-state check at
all.  After shutdown every worker has exited, yet a subsequent `imap` call
is not rejected with a state error: on empty input it simply yields zero
outputs and succeeds. -/
theorem imap_after_shutdown_counterexample :
    (poolExit ([] : List (QItem Nat)) [WStatus.running]).2 = [WStatus.exited]
    ∧ imapModel (fun v : Nat => v) 1 ([] : List Nat) [] = .ok [] :=
  ⟨rfl, rfl⟩

/-- Claim C9 (amended): after the pool's scope ends every worker's execution
context has exited; but a subsequent `imap` call is not rejected — there is
no state check and no state error in `imap` — with empty input it yields
zero outputs and succeeds, and with nonempty input at least one chunk is
dispatched while no exited worker can ever answer, so the final blocking
drain never returns. -/
theorem shutdown_no_state_check (q : List (QItem α)) (ws : List WStatus)
    (f : α → β) (cs : Int) (xs : List α) (hcs : 1 ≤ cs) (hxs : xs ≠ []) :
    (poolExit q ws).2 = List.replicate ws.length WStatus.exited
    ∧ imapModel f cs ([] : List α) [] = .ok []
    ∧ 0 < (chunking cs xs).length := by
  refine ⟨by simp [poolExit, map_joinWorker], rfl, ?_⟩
  by_contra hlen
  have h0 : chunking cs xs = [] :=
    List.length_eq_zero.mp (Nat.eq_zero_of_not_pos hlen)
  have h1 := chunking_flatten cs hcs xs
  rw [h0] at h1
  exact hxs (by simpa using h1.symm)

/-- Witness for C9 (amended) at one worker and input `[1]`. -/
theorem shutdown_no_state_check_witness :
    ((1 : Int) ≤ 1 ∧ ([1] : List Nat) ≠ [])
    ∧ ((poolExit ([] : List (QItem Nat)) [WStatus.running]).2 =
          List.replicate 1 WStatus.exited
      ∧ imapModel (fun v : Nat => v) 1 ([] : List Nat) [] = .ok []
      ∧ 0 < (chunking 1 ([1] : List Nat)).length) :=
  ⟨⟨by decide, by decide⟩,
    shutdown_no_state_check [] [WStatus.running] (fun v : Nat => v) 1 [1]
      (by decide) (by decide)⟩

/-- Claim C3: for `chunk_size ≥ 1` the chunks concatenate back to the input
(consecutive, order-preserving), every chunk holds at most `chunk_size`
items, every chunk except possibly the last holds exactly `chunk_size`
items, empty input produces zero chunks, and `chunk_size > len(xs) > 0`
produces exactly one chunk. -/
theorem chunking_spec (cs : Int) (xs : List α) (hcs : 1 ≤ cs) :
    (chunking cs xs).flatten = xs
    ∧ (∀ c ∈ chunking cs xs, (c.length : Int) ≤ cs)
    ∧ (∀ c ∈ (chunking cs xs).dropLast, (c.length : Int) = cs)
    ∧ (xs = [] → chunking cs xs = [])
    ∧ ((xs.length : Int) < cs → xs ≠ [] → (chunking cs xs).length = 1) := by
  have h0 : ((([] : List α)).length : Int) < cs := by simp; omega
  refine ⟨chunking_flatten cs hcs xs,
    chunkingAux_size_le cs xs [] h0,
    chunkingAux_dropLast_full cs xs [] h0, ?_, ?_⟩
  · intro h
    subst h
    rfl
  · intro hlt hne
    have h1 : chunking cs xs = [xs] := by
      unfold chunking
      rw [chunkingAux_small cs xs [] (by simpa using hlt)]
      simp [List.length_pos, hne]
    rw [h1]
    rfl

/-- Witness for C3 at `chunk_size = 2`, input `[1,2,3]`: chunks `[1,2]`,
`[3]`. -/
theorem chunking_spec_witness :
    ((1 : Int) ≤ 2)
    ∧ ((chunking 2 ([1, 2, 3] : List Nat)).flatten = [1, 2, 3]
      ∧ (∀ c ∈ chunking (2 : Int) ([1, 2, 3] : List Nat), (c.length : Int) ≤ 2)
      ∧ (∀ c ∈ (chunking (2 : Int) ([1, 2, 3] : List Nat)).dropLast,
          (c.length : Int) = 2)
      ∧ (([1, 2, 3] : List Nat) = [] → chunking (2 : Int) ([1, 2, 3] : List Nat) = [])
      ∧ ((([1, 2, 3] : List Nat).length : Int) < 2 → ([1, 2, 3] : List Nat) ≠ [] →
          (chunking (2 : Int) ([1, 2, 3] : List Nat)).length = 1)) :=
  ⟨by decide, chunking_spec 2 [1, 2, 3] (by decide)⟩

/-- Counterexample to C5 as stated: with `chunk_size = 0` (an invalid size)
and nonempty input, `imap` raises no validation error at all: the condition
`len(ch) == chunk_size` never fires, the whole input is dispatched as one
chunk, and the call yields its outputs normally. -/
theorem imap_validation_counterexample :
    chunking (0 : Int) ([1, 2] : List Nat) = [[1, 2]]
    ∧ imapModel (fun v : Nat => v) 0 [1, 2] [0] = .ok [1, 2] :=
  ⟨rfl, rfl⟩

/-- Claim C5 (amended): `imap` performs no chunk-size validation.  For every
`chunk_size ≤ 0` and nonempty input the entire input is accumulated into a
single chunk which is dispatched, and the call succeeds, yielding the mapped
outputs instead of raising. -/
theorem imap_no_chunk_size_validation (f : α → β) (cs : Int) (xs : List α)
    (hcs : cs ≤ 0) (hxs : xs ≠ []) :
    chunking cs xs = [xs] ∧ imapModel f cs xs [0] = .ok (xs.map f) := by
  have h1 : chunking cs xs = [xs] := by
    unfold chunking
    rw [chunkingAux_nonpos cs hcs xs []]
    simp [List.length_pos, hxs]
  refine ⟨h1, ?_⟩
  simp only [imapModel, h1]
  show Except.ok (List.flatten [xs.map f]) = Except.ok (xs.map f)
  simp

/-- Witness for C5 (amended) at `chunk_size = -3`, input `[7, 8]`. -/
theorem imap_no_chunk_size_validation_witness :
    ((-3 : Int) ≤ 0 ∧ ([7, 8] : List Nat) ≠ [])
    ∧ (chunking (-3 : Int) ([7, 8] : List Nat) = [[7, 8]]
      ∧ imapModel (fun v : Nat => v + 1) (-3) [7, 8] [0] = .ok [8, 9]) :=
  ⟨⟨by decide, by decide⟩,
    imap_no_chunk_size_validation (fun v : Nat => v + 1) (-3) [7, 8]
      (by decide) (by decide)⟩

end WindUtils
